import Mathlib

/-!
Verification of the anomaly-detection stage and CSV loader of the
wnba-data-quality-pipeline repository.

The tabular data model (`Frame`) embeds a pandas `DataFrame`: an ordered
list of row index labels together with named columns, each column either
numeric (with missing entries, pandas `NaN`, modelled as `Option ℚ`) or
textual.  Numeric values are modelled as exact rationals; all statistics
(median, linear-interpolation quantiles, mean, population variance) are
computed exactly.

`detect_anomalies` embeds `src/detect_anomalies.py` line by line:
the `df.empty` early return, per-numeric-column rule selection by
non-missing sample size (`< 5`: median-distance small-sample rule;
otherwise IQR fences OR z-score), the OR-accumulated boolean mask, and the
final row selection `df[anomaly_mask].copy()`.

`load_raw_csv` embeds `src/extract.py` over an abstract file system
(`none` = path does not exist, `some none` = the file exists but reading
fails, `some (some df)` = the file parses to the frame `df`).
-/

namespace Wnba

/-- A column's data: numeric (entries possibly missing, pandas `NaN`) or
textual.  Mirrors the `select_dtypes(include="number")` split. -/
inductive ColData where
  | num (vals : List (Option ℚ))
  | txt (vals : List String)
deriving DecidableEq

/-- A pandas `DataFrame`: row index labels plus named columns. -/
structure Frame where
  labels : List ℕ
  cols : List (String × ColData)
deriving DecidableEq

/-- Number of entries stored in a column. -/
def ColData.length : ColData → ℕ
  | .num vs => vs.length
  | .txt vs => vs.length

/-- Rectangularity: every column has one entry per row. -/
def Frame.WF (f : Frame) : Prop := ∀ c ∈ f.cols, c.2.length = f.labels.length

/-- pandas `df.empty`: true when any axis has length 0. -/
def Frame.isEmpty (f : Frame) : Bool := f.labels.isEmpty || f.cols.isEmpty

/-- The numeric columns' data, in original column order
(`df.select_dtypes` with the number kind). -/
def numericCols (f : Frame) : List (List (Option ℚ)) :=
  f.cols.filterMap (fun c => match c.2 with | .num vs => some vs | .txt _ => none)

/-- The non-missing values, in original row order (`series.dropna()`). -/
def nonMissing (vals : List (Option ℚ)) : List ℚ := vals.filterMap id

/-- Ascending sort (`np.sort` / the sort inside quantile computation). -/
def sortAsc (l : List ℚ) : List ℚ := l.insertionSort (· ≤ ·)

/-- The median, `np.median`: middle element of the sorted list for odd
length, average of the two middle elements for even length. -/
def median (l : List ℚ) : ℚ :=
  let s := sortAsc l
  let n := s.length
  if n % 2 = 1 then s.getD (n / 2) 0
  else (s.getD (n / 2 - 1) 0 + s.getD (n / 2) 0) / 2

/-- The sorted absolute distances from the median
(`np.sort(np.abs(col_data - med))`). -/
def sortedDiffs (vals : List (Option ℚ)) : List ℚ :=
  sortAsc ((nonMissing vals).map (fun v => |v - median (nonMissing vals)|))

/-- The largest distance from the median (`sorted_diffs[-1]`). -/
def dmax (vals : List (Option ℚ)) : ℚ :=
  (sortedDiffs vals).getD ((sortedDiffs vals).length - 1) 0

/-- The second-largest distance from the median (`sorted_diffs[-2]`). -/
def dsecond (vals : List (Option ℚ)) : ℚ :=
  (sortedDiffs vals).getD ((sortedDiffs vals).length - 2) 0

/-- The single-row marking `anomaly_mask[diffs.idxmax()] = True`: mark the first non-missing
position whose distance from `med` equals `d` (pandas `idxmax` returns the
first occurrence of the maximum), leaving every other position false. -/
def markFirstMax (med d : ℚ) : List (Option ℚ) → List Bool
  | [] => []
  | none :: rest => false :: markFirstMax med d rest
  | some v :: rest =>
      if |v - med| = d then true :: List.replicate rest.length false
      else false :: markFirstMax med d rest

/-- The small-sample (median-distance) rule of `detect_anomalies` for a
column with fewer than 5 non-missing values: if at least 2 points exist
and the largest distance from the median strictly exceeds 3 times the
second largest, flag the single first row achieving the maximum. -/
def smallMask (vals : List (Option ℚ)) : List Bool :=
  let cd := nonMissing vals
  let med := median cd
  let diffs := cd.map (fun v => |v - med|)
  if 1 < diffs.length then
    if 3 * dsecond vals < dmax vals then
      markFirstMax med (dmax vals) vals
    else List.replicate vals.length false
  else List.replicate vals.length false

/-- pandas `Series.quantile(q)` with the default linear interpolation:
position `h = (n-1)*q` into the sorted values, linearly interpolating
between the entries at `⌊h⌋` and `⌈h⌉`. -/
def quantile (l : List ℚ) (q : ℚ) : ℚ :=
  let s := sortAsc l
  let h : ℚ := ((s.length : ℚ) - 1) * q
  let lo : ℕ := ⌊h⌋.toNat
  let hi : ℕ := ⌈h⌉.toNat
  s.getD lo 0 + (h - (⌊h⌋ : ℚ)) * (s.getD hi 0 - s.getD lo 0)

/-- The lower IQR fence, `q1 - 1.5*iqr`. -/
def iqrLower (vals : List (Option ℚ)) : ℚ :=
  let cd := nonMissing vals
  quantile cd (1/4) - 3/2 * (quantile cd (3/4) - quantile cd (1/4))

/-- The upper IQR fence, `q3 + 1.5*iqr`. -/
def iqrUpper (vals : List (Option ℚ)) : ℚ :=
  let cd := nonMissing vals
  quantile cd (3/4) + 3/2 * (quantile cd (3/4) - quantile cd (1/4))

/-- The IQR mask `(df[col] < lower) | (df[col] > upper)`: true where the raw column
value lies strictly outside the IQR fences; a missing value compares as
not flagged (pandas `NaN` comparisons are false). -/
def iqrMask (vals : List (Option ℚ)) : List Bool :=
  vals.map (fun o => match o with
    | none => false
    | some v => decide (v < iqrLower vals ∨ iqrUpper vals < v))

/-- The mean of the non-missing values (`col_data.mean()`). -/
def mean (l : List ℚ) : ℚ := l.sum / l.length

/-- The population variance (`col_data.std(ddof=0)` squared): squared
deviations from the mean divided by the count, not count minus one. -/
def popVar (l : List ℚ) : ℚ := (l.map (fun x => (x - mean l) ^ 2)).sum / l.length

/-- The z-score mask: `z_scores.abs() > 2.0` where
`z_scores = (df[col] - mean) / std` and `std = sqrt(popVar)`, guarded by
`if std > 0`.  Since `std = √v` with `v = popVar`, the source's test
`std > 0` is `0 < v` and `|x - mean| / std > 2` is `4*v < (x - mean)^2`;
theorem `z_rule` below proves this equivalence against the literal
square-root formulation.  Missing values give `NaN` z-scores, never
flagged. -/
def zMask (vals : List (Option ℚ)) : List Bool :=
  let cd := nonMissing vals
  if 0 < popVar cd then
    vals.map (fun o => match o with
      | none => false
      | some x => decide (4 * popVar cd < (x - mean cd) ^ 2))
  else List.replicate vals.length false

/-- Pointwise OR of two boolean masks (`mask1 | mask2`). -/
def zipOr (a b : List Bool) : List Bool := List.zipWith (· || ·) a b

/-- One column's contribution to the anomaly mask: the small-sample rule
when fewer than 5 non-missing values, otherwise IQR OR z-score. -/
def colMask (vals : List (Option ℚ)) : List Bool :=
  if (nonMissing vals).length < 5 then smallMask vals
  else zipOr (iqrMask vals) (zMask vals)

/-- The accumulated `anomaly_mask`: starts all false, OR-ed with each
numeric column's contribution in column order. -/
def anomalyMask (f : Frame) : List Bool :=
  (numericCols f).foldl (fun acc vals => zipOr acc (colMask vals))
    (List.replicate f.labels.length false)

/-- Row selection `df[mask]`: keep the entries at positions where the mask
is true. -/
def maskFilter {α : Type} : List Bool → List α → List α
  | true :: m, a :: l => a :: maskFilter m l
  | false :: m, _ :: l => maskFilter m l
  | _, _ => []

/-- Row selection applied to one column's data. -/
def ColData.filterBy (m : List Bool) : ColData → ColData
  | .num vs => .num (maskFilter m vs)
  | .txt vs => .txt (maskFilter m vs)

/-- The detector `detect_anomalies(df)`: return `df.copy()` when `df.empty`, otherwise
`df[anomaly_mask].copy()`. -/
def detect_anomalies (f : Frame) : Frame :=
  if f.isEmpty then f
  else { labels := maskFilter (anomalyMask f) f.labels,
         cols := f.cols.map (fun c => (c.1, c.2.filterBy (anomalyMask f))) }

/-- The two error species of `load_raw_csv`. -/
inductive LoadError where
  | fileNotFound
  | valueError
deriving DecidableEq

/-- The loader `load_raw_csv(path)` over an abstract file system `fs`:
`fs path = none` models a non-existent path (`FileNotFoundError`),
`some none` a file whose read fails (re-raised as `ValueError`),
`some (some df)` a file parsing to frame `df`, rejected as `ValueError`
when `df.empty` and returned otherwise. -/
def load_raw_csv (fs : String → Option (Option Frame)) (path : String) :
    Except LoadError Frame :=
  match fs path with
  | none => .error .fileNotFound
  | some none => .error .valueError
  | some (some df) => if df.isEmpty then .error .valueError else .ok df

/-! ### Basic mask lemmas -/

theorem getD_replicate_false (n i : ℕ) :
    (List.replicate n false).getD i false = false := by
  rcases Nat.lt_or_ge i n with h | h
  · rw [List.getD_eq_getElem _ _ (by simpa using h)]
    simp
  · exact List.getD_eq_default _ _ (by simpa using h)

theorem zipOr_getD (a b : List Bool) (h : a.length = b.length) (i : ℕ) :
    (zipOr a b).getD i false = (a.getD i false || b.getD i false) := by
  induction a generalizing b i with
  | nil =>
    cases b with
    | nil => simp [zipOr]
    | cons y ys => simp at h
  | cons x xs ih =>
    cases b with
    | nil => simp at h
    | cons y ys =>
      cases i with
      | zero => simp [zipOr]
      | succ k =>
        have := ih ys (by simpa using h) k
        simpa [zipOr] using this

theorem zipOr_length (a b : List Bool) :
    (zipOr a b).length = min a.length b.length := by
  simp [zipOr]

theorem markFirstMax_length (med d : ℚ) (vals : List (Option ℚ)) :
    (markFirstMax med d vals).length = vals.length := by
  induction vals with
  | nil => rfl
  | cons o rest ih =>
    cases o with
    | none => simpa [markFirstMax] using ih
    | some v =>
      by_cases h : |v - med| = d <;> simp [markFirstMax, h, ih]

theorem smallMask_length (vals : List (Option ℚ)) :
    (smallMask vals).length = vals.length := by
  simp only [smallMask]
  split_ifs <;> simp [markFirstMax_length]

theorem iqrMask_length (vals : List (Option ℚ)) :
    (iqrMask vals).length = vals.length := by
  simp [iqrMask]

theorem zMask_length (vals : List (Option ℚ)) :
    (zMask vals).length = vals.length := by
  simp only [zMask]
  split_ifs <;> simp

theorem colMask_length (vals : List (Option ℚ)) :
    (colMask vals).length = vals.length := by
  unfold colMask
  split
  · exact smallMask_length vals
  · rw [zipOr_length, iqrMask_length, zMask_length, Nat.min_self]

/-! ### `markFirstMax` characterisation: pandas `idxmax` semantics -/

theorem markFirstMax_getD (med d : ℚ) (vals : List (Option ℚ)) (i : ℕ) :
    (markFirstMax med d vals).getD i false = true ↔
      ∃ v, vals.getD i none = some v ∧ |v - med| = d ∧
        ∀ j < i, ∀ w, vals.getD j none = some w → |w - med| ≠ d := by
  induction vals generalizing i with
  | nil => simp [markFirstMax]
  | cons o rest ih =>
    cases o with
    | none =>
      cases i with
      | zero => simp [markFirstMax]
      | succ k =>
        rw [markFirstMax]
        simp only [List.getD_cons_succ]
        rw [ih k]
        constructor
        · rintro ⟨v, hv, hd, hmin⟩
          refine ⟨v, hv, hd, ?_⟩
          intro j hj w hw
          cases j with
          | zero => simp at hw
          | succ j' =>
            simp only [List.getD_cons_succ] at hw
            exact hmin j' (Nat.lt_of_succ_lt_succ hj) w hw
        · rintro ⟨v, hv, hd, hmin⟩
          refine ⟨v, hv, hd, ?_⟩
          intro j hj w hw
          exact hmin (j + 1) (Nat.succ_lt_succ hj) w (by simpa using hw)
    | some v₀ =>
      by_cases h : |v₀ - med| = d
      · cases i with
        | zero =>
          rw [markFirstMax, if_pos h]
          simp only [List.getD_cons_zero]
          constructor
          · intro _
            exact ⟨v₀, rfl, h, fun j hj => absurd hj (Nat.not_lt_zero j)⟩
          · intro _; trivial
        | succ k =>
          rw [markFirstMax, if_pos h]
          simp only [List.getD_cons_succ, getD_replicate_false]
          constructor
          · intro hfalse; exact absurd hfalse (by simp)
          · rintro ⟨v, hv, hd, hmin⟩
            exact absurd h (hmin 0 (Nat.succ_pos k) v₀ rfl)
      · cases i with
        | zero =>
          rw [markFirstMax, if_neg h]
          simp only [List.getD_cons_zero]
          constructor
          · intro hfalse; exact absurd hfalse (by simp)
          · rintro ⟨v, hv, hd, _⟩
            exact (h (by rw [Option.some.inj hv]; exact hd)).elim
        | succ k =>
          rw [markFirstMax, if_neg h]
          simp only [List.getD_cons_succ]
          rw [ih k]
          constructor
          · rintro ⟨v, hv, hd, hmin⟩
            refine ⟨v, hv, hd, ?_⟩
            intro j hj w hw
            cases j with
            | zero =>
              simp only [List.getD_cons_zero] at hw
              have hv0 : v₀ = w := Option.some.inj hw
              exact hv0 ▸ h
            | succ j' =>
              simp only [List.getD_cons_succ] at hw
              exact hmin j' (Nat.lt_of_succ_lt_succ hj) w hw
          · rintro ⟨v, hv, hd, hmin⟩
            refine ⟨v, hv, hd, ?_⟩
            intro j hj w hw
            exact hmin (j + 1) (Nat.succ_lt_succ hj) w (by simpa using hw)

theorem markFirstMax_count (med d : ℚ) (vals : List (Option ℚ)) :
    (markFirstMax med d vals).count true ≤ 1 := by
  induction vals with
  | nil => simp [markFirstMax]
  | cons o rest ih =>
    cases o with
    | none => simpa [markFirstMax] using ih
    | some v =>
      by_cases h : |v - med| = d
      · rw [markFirstMax, if_pos h]
        simp [List.count_cons, List.count_replicate]
      · rw [markFirstMax, if_neg h]
        simpa [List.count_cons] using ih

/-! ### Sorting facts: `dmax` really is the largest distance -/

theorem sortAsc_perm (l : List ℚ) : List.Perm (sortAsc l) l :=
  List.perm_insertionSort _ l

theorem sortAsc_sorted (l : List ℚ) : (sortAsc l).Sorted (· ≤ ·) :=
  List.sorted_insertionSort _ l

theorem sortedDiffs_length (vals : List (Option ℚ)) :
    (sortedDiffs vals).length = (nonMissing vals).length := by
  rw [sortedDiffs, (sortAsc_perm _).length_eq, List.length_map]

theorem le_dmax_of_mem_sortedDiffs (vals : List (Option ℚ)) (x : ℚ)
    (hx : x ∈ sortedDiffs vals) : x ≤ dmax vals := by
  obtain ⟨⟨j, hj⟩, rfl⟩ := List.mem_iff_get.mp hx
  have hlen : 0 < (sortedDiffs vals).length := by omega
  rw [dmax, List.getD_eq_getElem _ _ (by omega)]
  exact (sortAsc_sorted _).rel_get_of_le (by simp [Fin.le_def]; omega)

theorem abs_diff_le_dmax (vals : List (Option ℚ)) (x : ℚ)
    (hx : x ∈ nonMissing vals) : |x - median (nonMissing vals)| ≤ dmax vals := by
  apply le_dmax_of_mem_sortedDiffs
  rw [sortedDiffs, (sortAsc_perm _).mem_iff]
  exact List.mem_map_of_mem _ hx

theorem exists_diff_eq_dmax (vals : List (Option ℚ))
    (h : 0 < (nonMissing vals).length) :
    ∃ v ∈ nonMissing vals, |v - median (nonMissing vals)| = dmax vals := by
  have hlen : 0 < (sortedDiffs vals).length := by rwa [sortedDiffs_length]
  have hmem : dmax vals ∈ sortedDiffs vals := by
    rw [dmax, List.getD_eq_getElem _ _ (by omega)]
    exact List.getElem_mem _
  rw [sortedDiffs, (sortAsc_perm _).mem_iff, List.mem_map] at hmem
  obtain ⟨v, hv, heq⟩ := hmem
  exact ⟨v, hv, heq⟩

theorem markFirstMax_count_one (med d : ℚ) (vals : List (Option ℚ))
    (h : ∃ v ∈ nonMissing vals, |v - med| = d) :
    (markFirstMax med d vals).count true = 1 := by
  induction vals with
  | nil => simp [nonMissing] at h
  | cons o rest ih =>
    cases o with
    | none =>
      rw [markFirstMax]
      have : ∃ v ∈ nonMissing rest, |v - med| = d := by
        simpa [nonMissing] using h
      simpa [List.count_cons] using ih this
    | some v₀ =>
      by_cases hv : |v₀ - med| = d
      · rw [markFirstMax, if_pos hv]
        simp [List.count_cons, List.count_replicate]
      · rw [markFirstMax, if_neg hv]
        have : ∃ v ∈ nonMissing rest, |v - med| = d := by
          simp only [nonMissing, List.filterMap_cons] at h ⊢
          simp only [id] at h
          rcases h with ⟨v, hvmem, hvd⟩
          rcases List.mem_cons.mp hvmem with rfl | hmem
          · exact absurd hvd hv
          · exact ⟨v, hmem, hvd⟩
        simpa [List.count_cons] using ih this

/-! ### Claim theorems -/

/-- C1: for a numeric column with `2 ≤ n < 5` non-missing values the
small-sample rule applies (no IQR or z-score rule: the column's mask is
exactly `smallMask`); `dmax` is the largest absolute distance from the
median; at most one row is flagged, exactly one when
`dmax > 3 * dsecond`; and a position is flagged iff that strict inequality
holds and the position is the first non-missing one achieving the maximal
distance. -/
theorem small_sample_rule (vals : List (Option ℚ))
    (h2 : 2 ≤ (nonMissing vals).length) (h5 : (nonMissing vals).length < 5) :
    colMask vals = smallMask vals ∧
    (smallMask vals).count true ≤ 1 ∧
    (3 * dsecond vals < dmax vals → (smallMask vals).count true = 1) ∧
    (∀ x ∈ nonMissing vals, |x - median (nonMissing vals)| ≤ dmax vals) ∧
    ∀ i, ((smallMask vals).getD i false = true ↔
      (3 * dsecond vals < dmax vals ∧
       ∃ v, vals.getD i none = some v ∧
         |v - median (nonMissing vals)| = dmax vals ∧
         ∀ j < i, ∀ w, vals.getD j none = some w →
           |w - median (nonMissing vals)| ≠ dmax vals)) := by
  have h1 : 1 < ((nonMissing vals).map
      (fun v => |v - median (nonMissing vals)|)).length := by
    simpa using h2
  refine ⟨?_, ?_, ?_, ?_, ?_⟩
  · rw [colMask, if_pos h5]
  · simp only [smallMask]
    split_ifs
    · exact markFirstMax_count (median (nonMissing vals)) (dmax vals) vals
    all_goals simp [List.count_replicate]
  · intro hcmp
    simp only [smallMask]
    rw [if_pos h1, if_pos hcmp]
    exact markFirstMax_count_one _ _ _ (exists_diff_eq_dmax vals (by omega))
  · exact fun x hx => abs_diff_le_dmax vals x hx
  · intro i
    simp only [smallMask]
    rw [if_pos h1]
    by_cases hcmp : 3 * dsecond vals < dmax vals
    · rw [if_pos hcmp, markFirstMax_getD]
      constructor
      · rintro ⟨v, hv, hd, hmin⟩
        exact ⟨hcmp, v, hv, hd, hmin⟩
      · rintro ⟨_, v, hv, hd, hmin⟩
        exact ⟨v, hv, hd, hmin⟩
    · rw [if_neg hcmp]
      simp [getD_replicate_false, hcmp]

/-- Witness for C1 at the spec's §8 scenario `[20, 22, 100]`. -/
theorem small_sample_rule_witness :
    colMask [some 20, some 22, some (100 : ℚ)] =
      smallMask [some 20, some 22, some (100 : ℚ)] ∧
    (smallMask [some 20, some 22, some (100 : ℚ)]).count true ≤ 1 :=
  ⟨(small_sample_rule _ (by decide) (by decide)).1,
   (small_sample_rule _ (by decide) (by decide)).2.1⟩

/-! ### IQR and z-score rule characterisations -/

theorem getD_map_option (g : Option ℚ → Bool) (hg : g none = false)
    (vals : List (Option ℚ)) (i : ℕ) :
    (vals.map g).getD i false = g (vals.getD i none) := by
  rcases Nat.lt_or_ge i vals.length with h | h
  · rw [List.getD_eq_getElem _ _ (by simpa using h), List.getElem_map,
      List.getD_eq_getElem _ _ h]
  · rw [List.getD_eq_default _ _ (by simpa using h), List.getD_eq_default _ _ h, hg]

theorem popVar_nonneg (l : List ℚ) : 0 ≤ popVar l := by
  apply div_nonneg
  · apply List.sum_nonneg
    intro x hx
    obtain ⟨y, _, rfl⟩ := List.mem_map.mp hx
    positivity
  · positivity

/-- Over the reals, the source's z-score test
`std > 0 ∧ |（x − mean) / std| > 2` with `std = √variance` is the
rational test `variance > 0 ∧ (x − mean)² > 4·variance`. -/
theorem zflag_equiv (x μ v : ℚ) (hv : 0 ≤ v) :
    (0 < Real.sqrt (v : ℝ) ∧
      2 < |((x : ℝ) - (μ : ℝ)) / Real.sqrt (v : ℝ)|) ↔
    (0 < v ∧ 4 * v < (x - μ) ^ 2) := by
  have hv' : (0 : ℝ) ≤ (v : ℝ) := by exact_mod_cast hv
  have hs : Real.sqrt (v : ℝ) ^ 2 = (v : ℝ) := Real.sq_sqrt hv'
  constructor
  · rintro ⟨hpos, hgt⟩
    have hvpos : 0 < v := by exact_mod_cast Real.sqrt_pos.mp hpos
    refine ⟨hvpos, ?_⟩
    rw [abs_div, abs_of_pos hpos, lt_div_iff₀ hpos] at hgt
    have hr : (4 : ℝ) * (v : ℝ) < (((x : ℝ) - (μ : ℝ))) ^ 2 := by
      nlinarith [abs_nonneg ((x : ℝ) - (μ : ℝ)), sq_abs ((x : ℝ) - (μ : ℝ)),
        Real.sqrt_nonneg (v : ℝ), hgt, hs]
    exact_mod_cast hr
  · rintro ⟨hvpos, hlt⟩
    have hpos : 0 < Real.sqrt (v : ℝ) := Real.sqrt_pos.mpr (by exact_mod_cast hvpos)
    refine ⟨hpos, ?_⟩
    have hlt' : (4 : ℝ) * (v : ℝ) < (((x : ℝ) - (μ : ℝ))) ^ 2 := by exact_mod_cast hlt
    rw [abs_div, abs_of_pos hpos, lt_div_iff₀ hpos]
    by_contra hc
    push_neg at hc
    nlinarith [sq_abs ((x : ℝ) - (μ : ℝ)), abs_nonneg ((x : ℝ) - (μ : ℝ)),
      Real.sqrt_nonneg (v : ℝ), mul_self_le_mul_self (abs_nonneg ((x : ℝ) - (μ : ℝ))) hc]

/-- C3: for a column with at least 5 non-missing values, a position is
flagged by the IQR rule iff its value is present and lies strictly outside
`[Q1 - 1.5*IQR, Q3 + 1.5*IQR]` with `Q1`,`Q3` the linear-interpolation
quartiles of the non-missing values and `IQR = Q3 - Q1`; missing values
are never flagged. -/
theorem iqr_rule (vals : List (Option ℚ))
    (_h5 : 5 ≤ (nonMissing vals).length) (i : ℕ) :
    (iqrMask vals).getD i false = true ↔
      ∃ v, vals.getD i none = some v ∧
        (v < quantile (nonMissing vals) (1/4) -
              3/2 * (quantile (nonMissing vals) (3/4) -
                     quantile (nonMissing vals) (1/4)) ∨
         quantile (nonMissing vals) (3/4) +
              3/2 * (quantile (nonMissing vals) (3/4) -
                     quantile (nonMissing vals) (1/4)) < v) := by
  rw [iqrMask, getD_map_option _ rfl]
  cases h : vals.getD i none with
  | none => simp
  | some v =>
    simp only [iqrLower, iqrUpper, decide_eq_true_eq, Option.some.injEq]
    constructor
    · intro hout
      exact ⟨v, rfl, hout⟩
    · rintro ⟨w, rfl, hout⟩
      exact hout

/-- Witness for C3 on a concrete 5-value column. -/
theorem iqr_rule_witness :
    (iqrMask [some 1, some 2, some 3, some 4, some (100 : ℚ)]).getD 4 false = true ↔
      ∃ v, ([some 1, some 2, some 3, some 4, some (100 : ℚ)]).getD 4 none = some v ∧
        (v < quantile (nonMissing [some 1, some 2, some 3, some 4, some (100 : ℚ)]) (1/4) -
              3/2 * (quantile (nonMissing [some 1, some 2, some 3, some 4, some (100 : ℚ)]) (3/4) -
                     quantile (nonMissing [some 1, some 2, some 3, some 4, some (100 : ℚ)]) (1/4)) ∨
         quantile (nonMissing [some 1, some 2, some 3, some 4, some (100 : ℚ)]) (3/4) +
              3/2 * (quantile (nonMissing [some 1, some 2, some 3, some 4, some (100 : ℚ)]) (3/4) -
                     quantile (nonMissing [some 1, some 2, some 3, some 4, some (100 : ℚ)]) (1/4)) < v) :=
  iqr_rule [some 1, some 2, some 3, some 4, some (100 : ℚ)] (by decide) 4

/-- C4: for a column with at least 5 non-missing values, with
`std = √(population variance)` (divisor = count), a position is flagged by
the z-score rule iff its value is present, `std > 0`, and
`|(value - mean) / std| > 2`; when `std = 0` the rule flags nothing. -/
theorem z_rule (vals : List (Option ℚ))
    (_h5 : 5 ≤ (nonMissing vals).length) :
    (∀ i, ((zMask vals).getD i false = true ↔
      (0 < Real.sqrt ((popVar (nonMissing vals) : ℝ)) ∧
       ∃ x, vals.getD i none = some x ∧
         2 < |((x : ℝ) - (mean (nonMissing vals) : ℝ)) /
               Real.sqrt ((popVar (nonMissing vals) : ℝ))|))) ∧
    (Real.sqrt ((popVar (nonMissing vals) : ℝ)) = 0 →
      zMask vals = List.replicate vals.length false) := by
  have hnn : 0 ≤ popVar (nonMissing vals) := popVar_nonneg _
  constructor
  · intro i
    simp only [zMask]
    split_ifs with hv
    · rw [getD_map_option _ rfl]
      cases h : vals.getD i none with
      | none =>
        constructor
        · intro hfalse; exact absurd hfalse (by simp)
        · rintro ⟨_, x, hx, _⟩; exact absurd hx (by simp)
      | some x =>
        have hmain := zflag_equiv x (mean (nonMissing vals)) (popVar (nonMissing vals)) hnn
        simp only [decide_eq_true_eq]
        constructor
        · intro hlt
          obtain ⟨hpos, habs⟩ := hmain.mpr ⟨hv, hlt⟩
          exact ⟨hpos, x, rfl, habs⟩
        · rintro ⟨hpos, y, hy, habs⟩
          obtain rfl : x = y := Option.some.inj hy
          exact (hmain.mp ⟨hpos, habs⟩).2
    · have hzero : popVar (nonMissing vals) = 0 := le_antisymm (not_lt.mp hv) hnn
      have hs0 : Real.sqrt ((popVar (nonMissing vals) : ℝ)) = 0 := by
        rw [hzero]; simp
      simp [getD_replicate_false, hs0]
  · intro hsqrt
    have hzero : popVar (nonMissing vals) = 0 := by
      have := (Real.sqrt_eq_zero (by exact_mod_cast hnn)).mp hsqrt
      exact_mod_cast this
    simp only [zMask]
    rw [if_neg (by rw [hzero]; exact lt_irrefl 0)]

/-- Witness for C4 on a concrete 5-value column, at position 4. -/
theorem z_rule_witness :
    (zMask [some 1, some 2, some 3, some 4, some (30 : ℚ)]).getD 4 false = true ↔
      (0 < Real.sqrt ((popVar (nonMissing
          [some 1, some 2, some 3, some 4, some (30 : ℚ)]) : ℝ)) ∧
       ∃ x, ([some 1, some 2, some 3, some 4, some (30 : ℚ)]).getD 4 none = some x ∧
         2 < |((x : ℝ) - (mean (nonMissing
               [some 1, some 2, some 3, some 4, some (30 : ℚ)]) : ℝ)) /
               Real.sqrt ((popVar (nonMissing
                 [some 1, some 2, some 3, some 4, some (30 : ℚ)]) : ℝ))|) :=
  (z_rule [some 1, some 2, some 3, some 4, some (30 : ℚ)] (by decide)).1 4

/-! ### The OR-accumulated mask and row selection -/

theorem mem_numericCols (f : Frame) (vs : List (Option ℚ)) :
    vs ∈ numericCols f ↔ ∃ nm, (nm, ColData.num vs) ∈ f.cols := by
  constructor
  · intro h
    obtain ⟨⟨nm, d⟩, hc, heq⟩ := List.mem_filterMap.mp h
    cases d with
    | num vs' =>
      simp only [Option.some.injEq] at heq
      exact ⟨nm, heq ▸ hc⟩
    | txt _ => simp at heq
  · rintro ⟨nm, hmem⟩
    exact List.mem_filterMap.mpr ⟨(nm, ColData.num vs), hmem, rfl⟩

theorem numericCols_length (f : Frame) (hwf : f.WF) (vs : List (Option ℚ))
    (h : vs ∈ numericCols f) : vs.length = f.labels.length := by
  obtain ⟨nm, hmem⟩ := (mem_numericCols f vs).mp h
  simpa [ColData.length] using hwf _ hmem

theorem foldOr_length (cs : List (List (Option ℚ))) (acc : List Bool)
    (hcs : ∀ c ∈ cs, c.length = acc.length) :
    (cs.foldl (fun a v => zipOr a (colMask v)) acc).length = acc.length := by
  induction cs generalizing acc with
  | nil => rfl
  | cons c rest ih =>
    have hc : c.length = acc.length := hcs c (by simp)
    have hlen : (zipOr acc (colMask c)).length = acc.length := by
      rw [zipOr_length, colMask_length, hc, Nat.min_self]
    rw [List.foldl_cons, ih _ (fun c' hc' => by rw [hlen]; exact hcs c' (by simp [hc'])), hlen]

theorem foldOr_getD (cs : List (List (Option ℚ))) (acc : List Bool)
    (hcs : ∀ c ∈ cs, c.length = acc.length) (i : ℕ) :
    (cs.foldl (fun a v => zipOr a (colMask v)) acc).getD i false =
      (acc.getD i false || cs.any (fun c => (colMask c).getD i false)) := by
  induction cs generalizing acc with
  | nil => simp
  | cons c rest ih =>
    have hc : c.length = acc.length := hcs c (by simp)
    have hlen : (zipOr acc (colMask c)).length = acc.length := by
      rw [zipOr_length, colMask_length, hc, Nat.min_self]
    rw [List.foldl_cons,
      ih _ (fun c' hc' => by rw [hlen]; exact hcs c' (by simp [hc'])),
      zipOr_getD _ _ (by rw [colMask_length, hc]) i]
    simp [Bool.or_assoc]

theorem anomalyMask_length (f : Frame) (hwf : f.WF) :
    (anomalyMask f).length = f.labels.length := by
  rw [anomalyMask, foldOr_length, List.length_replicate]
  intro c hc
  rw [List.length_replicate]
  exact numericCols_length f hwf c hc

theorem anomalyMask_getD (f : Frame) (hwf : f.WF) (i : ℕ) :
    (anomalyMask f).getD i false =
      (numericCols f).any (fun c => (colMask c).getD i false) := by
  rw [anomalyMask, foldOr_getD, getD_replicate_false, Bool.false_or]
  intro c hc
  rw [List.length_replicate]
  exact numericCols_length f hwf c hc

theorem maskFilter_sublist {α : Type} (m : List Bool) (l : List α) :
    (maskFilter m l).Sublist l := by
  induction l generalizing m with
  | nil =>
    cases m with
    | nil => simp [maskFilter]
    | cons b m' => simp [maskFilter]
  | cons a t ih =>
    cases m with
    | nil => simp [maskFilter]
    | cons b m' =>
      cases b with
      | true => exact (ih m').cons₂ a
      | false => exact (ih m').cons a

theorem maskFilter_zip {α β : Type} (m : List Bool) (l : List α) (l' : List β)
    (h : l.length = l'.length) :
    maskFilter m (l.zip l') = (maskFilter m l).zip (maskFilter m l') := by
  induction m generalizing l l' with
  | nil => simp [maskFilter]
  | cons b m' ih =>
    cases l with
    | nil =>
      cases l' with
      | nil => simp [maskFilter]
      | cons a' t' => simp at h
    | cons a t =>
      cases l' with
      | nil => simp at h
      | cons a' t' =>
        cases b with
        | true =>
          show (a, a') :: maskFilter m' (t.zip t') =
            ((a :: maskFilter m' t).zip (a' :: maskFilter m' t'))
          rw [List.zip_cons_cons, ih t t' (by simpa using h)]
        | false =>
          show maskFilter m' (t.zip t') = (maskFilter m' t).zip (maskFilter m' t')
          exact ih t t' (by simpa using h)

theorem mem_maskFilter_iff {α : Type} (m : List Bool) (l : List α) (hnd : l.Nodup)
    (i : ℕ) (hi : i < l.length) :
    l[i] ∈ maskFilter m l ↔ m.getD i false = true := by
  induction l generalizing m i with
  | nil => simp at hi
  | cons a t ih =>
    obtain ⟨hna, hnt⟩ := List.nodup_cons.mp hnd
    cases m with
    | nil => simp [maskFilter]
    | cons b m' =>
      cases i with
      | zero =>
        cases b with
        | true => simp [maskFilter]
        | false =>
          simp only [List.getElem_cons_zero, List.getD_cons_zero, maskFilter]
          constructor
          · intro hmem
            exact absurd ((maskFilter_sublist m' t).subset hmem) hna
          · intro hfalse; exact absurd hfalse (by simp)
      | succ k =>
        have hk : k < t.length := by simpa using hi
        have htk : t[k] ∈ t := List.getElem_mem hk
        cases b with
        | true =>
          simp only [List.getElem_cons_succ, List.getD_cons_succ, maskFilter,
            List.mem_cons]
          rw [← ih m' hnt k hk]
          constructor
          · rintro (heq | hmem)
            · exact absurd (heq ▸ htk) hna
            · exact hmem
          · exact fun hmem => Or.inr hmem
        | false =>
          simp only [List.getElem_cons_succ, List.getD_cons_succ, maskFilter]
          exact ih m' hnt k hk

/-- C2 (amended): for every rectangular input frame with distinct row
labels that is not `empty` in the pandas sense, a row label appears in the
output iff some numeric column's mask flags its position; output labels
stay distinct (each flagged row appears once); and for a column with at
least 5 non-missing values the column mask is exactly
IQR-flag OR z-score-flag. -/
theorem detect_membership (f : Frame) (hwf : f.WF) (hnd : f.labels.Nodup)
    (hne : f.isEmpty = false) :
    (∀ i (hi : i < f.labels.length),
      (f.labels[i] ∈ (detect_anomalies f).labels ↔
        ∃ vals ∈ numericCols f, (colMask vals).getD i false = true)) ∧
    (detect_anomalies f).labels.Nodup ∧
    (∀ vals : List (Option ℚ), 5 ≤ (nonMissing vals).length →
      colMask vals = zipOr (iqrMask vals) (zMask vals)) := by
  have hdet : (detect_anomalies f).labels = maskFilter (anomalyMask f) f.labels := by
    rw [detect_anomalies, if_neg (by simp [hne])]
  refine ⟨?_, ?_, ?_⟩
  · intro i hi
    rw [hdet, mem_maskFilter_iff _ _ hnd i hi, anomalyMask_getD f hwf i,
      List.any_eq_true]
  · rw [hdet]
    exact hnd.sublist (maskFilter_sublist _ _)
  · intro vals h5
    rw [colMask, if_neg (by omega)]

/-- C2 counterexample: a frame with one row and zero columns is `empty` in
the pandas sense (`df.empty` is true when any axis has length 0), so
`detect_anomalies` returns it whole: its row appears in the output even
though no numeric column flags it, contradicting the claim's "if and only
if" over *every* input dataset. -/
theorem detect_membership_cex :
    7 ∈ (detect_anomalies ⟨[7], []⟩).labels ∧
    ¬∃ vals ∈ numericCols ⟨[7], []⟩, (colMask vals).getD 0 false = true := by
  constructor
  · show 7 ∈ (detect_anomalies ⟨[7], []⟩).labels
    rw [detect_anomalies, if_pos (by rfl)]
    simp
  · rintro ⟨vals, hmem, _⟩
    simp [numericCols] at hmem

/-- Witness for C2 on a frame with one numeric column and an outlier. -/
theorem detect_membership_witness :
    (detect_anomalies ⟨[0, 1, 2],
        [("pts", ColData.num [some 20, some 22, some 100])]⟩).labels.Nodup :=
  (detect_membership ⟨[0, 1, 2],
      [("pts", ColData.num [some 20, some 22, some 100])]⟩
    (by intro c hc; simp at hc; subst hc; rfl) (by decide) (by rfl)).2.1

/-- C5: the output of `detect_anomalies` is a selection of the input's
rows: its labels are a sublist of the input labels (order and identity
preserved, no row fabricated), the column names are unchanged, and every
column — textual or numeric — keeps, for each surviving row, exactly the
value the input paired with that row label.  The embedding is pure, so the
input frame itself is untouched (the source builds a fresh mask and
returns `df[anomaly_mask].copy()`). -/
theorem detect_frame_shape (f : Frame) (hwf : f.WF) :
    (detect_anomalies f).labels.Sublist f.labels ∧
    (detect_anomalies f).cols.map Prod.fst = f.cols.map Prod.fst ∧
    (∀ nm vs, (nm, ColData.txt vs) ∈ f.cols →
      ∃ vs', (nm, ColData.txt vs') ∈ (detect_anomalies f).cols ∧
        ((detect_anomalies f).labels.zip vs').Sublist (f.labels.zip vs)) ∧
    (∀ nm vs, (nm, ColData.num vs) ∈ f.cols →
      ∃ vs', (nm, ColData.num vs') ∈ (detect_anomalies f).cols ∧
        ((detect_anomalies f).labels.zip vs').Sublist (f.labels.zip vs)) := by
  by_cases he : f.isEmpty
  · have hdet : detect_anomalies f = f := by rw [detect_anomalies, if_pos he]
    rw [hdet]
    refine ⟨List.Sublist.refl _, rfl, ?_, ?_⟩
    · exact fun nm vs hmem => ⟨vs, hmem, List.Sublist.refl _⟩
    · exact fun nm vs hmem => ⟨vs, hmem, List.Sublist.refl _⟩
  · have hdet : detect_anomalies f =
        { labels := maskFilter (anomalyMask f) f.labels,
          cols := f.cols.map (fun c => (c.1, c.2.filterBy (anomalyMask f))) } := by
      rw [detect_anomalies, if_neg he]
    rw [hdet]
    refine ⟨maskFilter_sublist _ _, ?_, ?_, ?_⟩
    · rw [List.map_map]; rfl
    · intro nm vs hmem
      refine ⟨maskFilter (anomalyMask f) vs, ?_, ?_⟩
      · have := List.mem_map_of_mem
          (fun c => (c.1, ColData.filterBy (anomalyMask f) c.2)) hmem
        simpa [ColData.filterBy] using this
      · have hlen : f.labels.length = vs.length := by
          simpa [ColData.length] using (hwf _ hmem).symm
        rw [← maskFilter_zip _ _ _ hlen]
        exact maskFilter_sublist _ _
    · intro nm vs hmem
      refine ⟨maskFilter (anomalyMask f) vs, ?_, ?_⟩
      · have := List.mem_map_of_mem
          (fun c => (c.1, ColData.filterBy (anomalyMask f) c.2)) hmem
        simpa [ColData.filterBy] using this
      · have hlen : f.labels.length = vs.length := by
          simpa [ColData.length] using (hwf _ hmem).symm
        rw [← maskFilter_zip _ _ _ hlen]
        exact maskFilter_sublist _ _

/-- Witness for C5 on a small mixed frame. -/
theorem detect_frame_shape_witness :
    (detect_anomalies ⟨[0, 1],
        [("team", ColData.txt ["A", "B"]),
         ("pts", ColData.num [some 1, some 2])]⟩).labels.Sublist [0, 1] :=
  (detect_frame_shape ⟨[0, 1],
      [("team", ColData.txt ["A", "B"]),
       ("pts", ColData.num [some 1, some 2])]⟩
    (by intro c hc; simp at hc; rcases hc with h | h <;> subst h <;> rfl)).1

/-- C6: a frame with zero rows is `empty`, so `detect_anomalies` returns
it unchanged — an empty frame with the same column structure, no rule
evaluated, no exception (the embedding is a total function). -/
theorem detect_empty (f : Frame) (hf : f.labels = []) :
    detect_anomalies f = f := by
  rw [detect_anomalies, if_pos (by simp [Frame.isEmpty, hf])]

/-- Witness for C6 on a zero-row frame with columns. -/
theorem detect_empty_witness :
    detect_anomalies ⟨[], [("team", ColData.txt []), ("pts", ColData.num [])]⟩ =
      ⟨[], [("team", ColData.txt []), ("pts", ColData.num [])]⟩ :=
  detect_empty _ rfl

/-! ### Constant (zero-variance) and tiny columns never flag -/

theorem sortAsc_all_eq (l : List ℚ) (c : ℚ) (h : ∀ x ∈ l, x = c) :
    ∀ x ∈ sortAsc l, x = c :=
  fun x hx => h x ((sortAsc_perm l).mem_iff.mp hx)

theorem sortedDiffs_all_eq (vals : List (Option ℚ)) (c : ℚ)
    (hc : ∀ x ∈ nonMissing vals, x = c) :
    ∀ x ∈ sortedDiffs vals, x = |c - median (nonMissing vals)| := by
  intro x hx
  obtain ⟨v, hv, rfl⟩ := List.mem_map.mp ((sortAsc_perm _).mem_iff.mp hx)
  rw [hc v hv]

theorem smallMask_of_lt_two (vals : List (Option ℚ))
    (h : (nonMissing vals).length < 2) :
    smallMask vals = List.replicate vals.length false := by
  simp only [smallMask]
  rw [if_neg (by simp only [List.length_map]; omega)]

theorem smallMask_const (vals : List (Option ℚ)) (c : ℚ)
    (hc : ∀ x ∈ nonMissing vals, x = c) :
    smallMask vals = List.replicate vals.length false := by
  by_cases h2 : (nonMissing vals).length < 2
  · exact smallMask_of_lt_two vals h2
  · push_neg at h2
    have hlen : (sortedDiffs vals).length = (nonMissing vals).length :=
      sortedDiffs_length vals
    have hall := sortedDiffs_all_eq vals c hc
    have hd1 : dmax vals = |c - median (nonMissing vals)| := by
      rw [dmax, List.getD_eq_getElem _ _ (by omega)]
      exact hall _ (List.getElem_mem _)
    have hd2 : dsecond vals = |c - median (nonMissing vals)| := by
      rw [dsecond, List.getD_eq_getElem _ _ (by omega)]
      exact hall _ (List.getElem_mem _)
    simp only [smallMask]
    rw [if_pos (by simp only [List.length_map]; omega),
      if_neg (by rw [hd1, hd2]; have := abs_nonneg (c - median (nonMissing vals)); linarith)]

theorem quantile_const (l : List ℚ) (c q : ℚ) (hne : l ≠ [])
    (hq0 : 0 ≤ q) (hq1 : q ≤ 1) (h : ∀ x ∈ l, x = c) : quantile l q = c := by
  have hs := sortAsc_all_eq l c h
  have hlen : (sortAsc l).length = l.length := (sortAsc_perm l).length_eq
  have hpos : 0 < l.length := List.length_pos.mpr hne
  have hn1 : (1 : ℚ) ≤ ((sortAsc l).length : ℚ) := by
    rw [hlen]; exact_mod_cast hpos
  have h0 : 0 ≤ (((sortAsc l).length : ℚ) - 1) * q :=
    mul_nonneg (by linarith) hq0
  have h1 : (((sortAsc l).length : ℚ) - 1) * q ≤ ((sortAsc l).length : ℚ) - 1 := by
    nlinarith
  have hfl : 0 ≤ ⌊(((sortAsc l).length : ℚ) - 1) * q⌋ := Int.floor_nonneg.mpr h0
  have hfu : ⌊(((sortAsc l).length : ℚ) - 1) * q⌋ ≤ ((sortAsc l).length : ℤ) - 1 := by
    have hcast : (((sortAsc l).length : ℤ) - 1 : ℚ) = ((sortAsc l).length : ℚ) - 1 := by
      push_cast; ring
    calc ⌊(((sortAsc l).length : ℚ) - 1) * q⌋
        ≤ ⌊((((sortAsc l).length : ℤ) - 1 : ℤ) : ℚ)⌋ :=
          Int.floor_le_floor (by push_cast; linarith)
      _ = ((sortAsc l).length : ℤ) - 1 := Int.floor_intCast _
  have hcl : 0 ≤ ⌈(((sortAsc l).length : ℚ) - 1) * q⌉ := Int.ceil_nonneg h0
  have hcu : ⌈(((sortAsc l).length : ℚ) - 1) * q⌉ ≤ ((sortAsc l).length : ℤ) - 1 :=
    Int.ceil_le.mpr (by push_cast; linarith)
  have hlpos : 0 < (sortAsc l).length := by omega
  have hlo : ⌊(((sortAsc l).length : ℚ) - 1) * q⌋.toNat < (sortAsc l).length := by omega
  have hhi : ⌈(((sortAsc l).length : ℚ) - 1) * q⌉.toNat < (sortAsc l).length := by omega
  simp only [quantile]
  rw [List.getD_eq_getElem _ _ hlo, List.getD_eq_getElem _ _ hhi,
    hs _ (List.getElem_mem hlo), hs _ (List.getElem_mem hhi)]
  ring

theorem mean_const (l : List ℚ) (c : ℚ) (hne : l ≠ []) (h : ∀ x ∈ l, x = c) :
    mean l = c := by
  have hsum : l.sum = l.length • c := List.sum_eq_card_nsmul l c h
  have hlen : (l.length : ℚ) ≠ 0 := by
    exact_mod_cast Nat.pos_iff_ne_zero.mp (List.length_pos.mpr hne)
  rw [mean, hsum, nsmul_eq_mul]
  field_simp

theorem popVar_const (l : List ℚ) (c : ℚ) (h : ∀ x ∈ l, x = c) :
    popVar l = 0 := by
  rcases eq_or_ne l [] with rfl | hne
  · simp [popVar]
  · have hmean := mean_const l c hne h
    have hzero : ∀ y ∈ l.map (fun x => (x - mean l) ^ 2), y = 0 := by
      intro y hy
      obtain ⟨x, hx, rfl⟩ := List.mem_map.mp hy
      rw [h x hx, hmean, sub_self]
      ring
    rw [popVar, List.sum_eq_zero hzero, zero_div]

theorem zipOr_replicate_false (n : ℕ) :
    zipOr (List.replicate n false) (List.replicate n false) =
      List.replicate n false := by
  induction n with
  | zero => rfl
  | succ k ih =>
    simp only [zipOr] at ih
    simp [zipOr, List.replicate_succ, ih]

theorem iqrMask_const (vals : List (Option ℚ)) (c : ℚ)
    (hne : nonMissing vals ≠ []) (hc : ∀ x ∈ nonMissing vals, x = c) :
    iqrMask vals = List.replicate vals.length false := by
  have hl : iqrLower vals = c := by
    simp only [iqrLower]
    rw [quantile_const _ c _ hne (by norm_num) (by norm_num) hc,
      quantile_const _ c _ hne (by norm_num) (by norm_num) hc]
    ring
  have hu : iqrUpper vals = c := by
    simp only [iqrUpper]
    rw [quantile_const _ c _ hne (by norm_num) (by norm_num) hc,
      quantile_const _ c _ hne (by norm_num) (by norm_num) hc]
    ring
  apply List.ext_getElem (by simp [iqrMask])
  intro i h1 h2
  have hiv : i < vals.length := by simpa [iqrMask] using h1
  rw [← List.getD_eq_getElem (iqrMask vals) false h1,
    ← List.getD_eq_getElem (List.replicate vals.length false) false h2,
    getD_replicate_false]
  simp only [iqrMask]
  rw [getD_map_option _ rfl]
  cases hv : vals.getD i none with
  | none => rfl
  | some v =>
    have hsome : some v ∈ vals := by
      rw [List.getD_eq_getElem _ _ hiv] at hv
      exact hv ▸ List.getElem_mem hiv
    have hvm : v ∈ nonMissing vals := List.mem_filterMap.mpr ⟨some v, hsome, rfl⟩
    rw [hc v hvm, hl, hu]
    simp

theorem colMask_const (vals : List (Option ℚ)) (c : ℚ)
    (hc : ∀ x ∈ nonMissing vals, x = c) :
    colMask vals = List.replicate vals.length false := by
  by_cases hn : (nonMissing vals).length < 5
  · rw [colMask, if_pos hn]
    exact smallMask_const vals c hc
  · rw [colMask, if_neg hn]
    have hne : nonMissing vals ≠ [] := by
      intro h; rw [h] at hn; simp at hn
    have hz : zMask vals = List.replicate vals.length false := by
      simp only [zMask]
      rw [if_neg (by rw [popVar_const _ c hc]; exact lt_irrefl 0)]
    rw [iqrMask_const vals c hne hc, hz, zipOr_replicate_false]

/-- C7: `detect_anomalies` is a total function (the embedding returns on
every input) and every degenerate input contributes no flags: a zero-row
frame is returned as-is; a numeric column with fewer than 2 non-missing
values (in particular an all-missing column) has an all-false mask; and a
zero-variance (constant) column has an all-false mask at every sample
size. -/
theorem degenerate_inputs :
    (∀ f : Frame, f.labels = [] → detect_anomalies f = f) ∧
    (∀ vals : List (Option ℚ), (nonMissing vals).length < 2 →
      colMask vals = List.replicate vals.length false) ∧
    (∀ (vals : List (Option ℚ)) (c : ℚ), (∀ x ∈ nonMissing vals, x = c) →
      colMask vals = List.replicate vals.length false) := by
  refine ⟨?_, ?_, ?_⟩
  · intro f hf
    rw [detect_anomalies, if_pos (by simp [Frame.isEmpty, hf])]
  · intro vals h
    rw [colMask, if_pos (by omega)]
    exact smallMask_of_lt_two vals h
  · exact fun vals c hc => colMask_const vals c hc

/-- Witness for C7 on an all-missing two-row column. -/
theorem degenerate_inputs_witness :
    colMask [none, none] =
      List.replicate ([none, none] : List (Option ℚ)).length false :=
  degenerate_inputs.2.1 [none, none] (by decide)

/-- C9: a numeric column with at least 5 non-missing values that are all
equal contributes no flags at all: both quartiles equal the common value,
the IQR fences collapse onto it, the strict outside comparison flags
nothing, the variance is zero so the z-rule is off, and the whole column
mask is false everywhere. -/
theorem constant_column_no_flags (vals : List (Option ℚ)) (c : ℚ)
    (h5 : 5 ≤ (nonMissing vals).length) (hc : ∀ x ∈ nonMissing vals, x = c) :
    quantile (nonMissing vals) (1/4) = c ∧
    quantile (nonMissing vals) (3/4) = c ∧
    iqrLower vals = c ∧ iqrUpper vals = c ∧
    popVar (nonMissing vals) = 0 ∧
    colMask vals = List.replicate vals.length false := by
  have hne : nonMissing vals ≠ [] := by
    intro h; rw [h] at h5; simp at h5
  have hq1 := quantile_const (nonMissing vals) c (1/4) hne (by norm_num) (by norm_num) hc
  have hq3 := quantile_const (nonMissing vals) c (3/4) hne (by norm_num) (by norm_num) hc
  refine ⟨hq1, hq3, ?_, ?_, popVar_const _ c hc, colMask_const vals c hc⟩
  · simp only [iqrLower]; rw [hq1, hq3]; ring
  · simp only [iqrUpper]; rw [hq1, hq3]; ring

/-- Witness for C9 on a constant 5-value column. -/
theorem constant_column_no_flags_witness :
    colMask [some 3, some 3, some 3, some 3, some (3 : ℚ)] =
      List.replicate
        ([some 3, some 3, some 3, some 3, some (3 : ℚ)] : List (Option ℚ)).length
        false :=
  (constant_column_no_flags [some 3, some 3, some 3, some 3, some (3 : ℚ)] 3
    (by decide) (by decide)).2.2.2.2.2

/-! ### Order independence and the loader -/

theorem perm_any_eq {α : Type} (g : α → Bool) {a b : List α}
    (hp : List.Perm a b) : a.any g = b.any g := by
  cases hA : a.any g with
  | true =>
    obtain ⟨x, hx, hgx⟩ := List.any_eq_true.mp hA
    exact (List.any_eq_true.mpr ⟨x, hp.mem_iff.mp hx, hgx⟩).symm
  | false =>
    cases hB : b.any g with
    | false => rfl
    | true =>
      obtain ⟨x, hx, hgx⟩ := List.any_eq_true.mp hB
      have hcontra : a.any g = true := List.any_eq_true.mpr ⟨x, hp.mem_iff.mpr hx, hgx⟩
      exact hA ▸ hcontra

/-- C8: folding the per-column masks over any permutation of the numeric
columns produces the same anomaly mask — the flag set is an
order-insensitive union, each column's contribution depending only on its
own values. -/
theorem column_order_independence (f : Frame) (hwf : f.WF)
    (p : List (List (Option ℚ))) (hp : List.Perm p (numericCols f)) :
    p.foldl (fun acc vals => zipOr acc (colMask vals))
      (List.replicate f.labels.length false) = anomalyMask f := by
  have hplen : ∀ c ∈ p,
      c.length = (List.replicate f.labels.length false).length := by
    intro c hc
    rw [List.length_replicate]
    exact numericCols_length f hwf c (hp.mem_iff.mp hc)
  have hqlen : ∀ c ∈ numericCols f,
      c.length = (List.replicate f.labels.length false).length := by
    intro c hc
    rw [List.length_replicate]
    exact numericCols_length f hwf c hc
  apply List.ext_getElem
  · rw [foldOr_length _ _ hplen, anomalyMask, foldOr_length _ _ hqlen]
  · intro i h1 h2
    rw [← List.getD_eq_getElem _ false h1, ← List.getD_eq_getElem _ false h2,
      foldOr_getD _ _ hplen i, anomalyMask, foldOr_getD _ _ hqlen i,
      perm_any_eq _ hp]

/-- Witness for C8: a two-numeric-column frame folded in swapped order. -/
theorem column_order_independence_witness :
    [[some (10 : ℚ), some 11, some 12], [some 1, some 2, some 100]].foldl
        (fun acc vals => zipOr acc (colMask vals))
        (List.replicate ([0, 1, 2] : List ℕ).length false) =
      anomalyMask ⟨[0, 1, 2],
        [("a", ColData.num [some 1, some 2, some 100]),
         ("b", ColData.num [some 10, some 11, some 12])]⟩ :=
  column_order_independence
    ⟨[0, 1, 2],
      [("a", ColData.num [some 1, some 2, some 100]),
       ("b", ColData.num [some 10, some 11, some 12])]⟩
    (by intro c hc; simp at hc; rcases hc with h | h <;> subst h <;> rfl) _
    (by show List.Perm _
          [[some (1 : ℚ), some 2, some 100], [some 10, some 11, some 12]]
        exact List.Perm.swap _ _ _)

/-- C10: the loader fails distinctly on missing versus empty input — a
path with no file gives `FileNotFoundError`, an existing file parsing to a
pandas-empty frame gives `ValueError` (a different error), and an
existing file parsing to a non-empty frame is returned unchanged. -/
theorem load_raw_csv_spec (fs : String → Option (Option Frame)) (path : String) :
    (fs path = none → load_raw_csv fs path = .error .fileNotFound) ∧
    (∀ df, fs path = some (some df) → df.isEmpty = true →
      load_raw_csv fs path = .error .valueError) ∧
    (∀ df, fs path = some (some df) → df.isEmpty = false →
      load_raw_csv fs path = .ok df) ∧
    LoadError.fileNotFound ≠ LoadError.valueError := by
  refine ⟨?_, ?_, ?_, fun h => LoadError.noConfusion h⟩
  · intro h
    simp [load_raw_csv, h]
  · intro df h hemp
    simp [load_raw_csv, h, hemp]
  · intro df h hemp
    simp [load_raw_csv, h, hemp]

/-- Witness for C10: a file system holding one non-empty frame. -/
theorem load_raw_csv_witness :
    load_raw_csv (fun _ => some (some ⟨[0], [("a", ColData.txt ["x"])]⟩))
        "data.csv" =
      .ok ⟨[0], [("a", ColData.txt ["x"])]⟩ :=
  (load_raw_csv_spec _ "data.csv").2.2.1 _ rfl rfl

-- sanity checks: the spec's §8 small-sample scenarios
example :
    smallMask [some 20, some 22, some 100] = [false, false, true] := by
  norm_num [smallMask, nonMissing, median, sortAsc, sortedDiffs, dmax, dsecond,
    markFirstMax, List.insertionSort, List.orderedInsert, List.filterMap,
    List.replicate]

example :
    smallMask [some 20, some 21, some 22] = [false, false, false] := by
  norm_num [smallMask, nonMissing, median, sortAsc, sortedDiffs, dmax, dsecond,
    markFirstMax, List.insertionSort, List.orderedInsert, List.filterMap,
    List.replicate]

end Wnba
